import Mathlib

/-!
Shallow embedding of the conlang repository (src/ast.rs, src/parser.rs,
src/main.rs) in Lean 4, used to settle the frozen claims about the
natural-language specification.

Modelling conventions:

* Rust `&str` input is modelled as `List Char`; a parser result is a
  `PRes α`, mirroring nom 4.x streaming semantics: `done rest val`
  corresponds to `Ok((rest, val))`, `error` to `Err(Err::Error(_))`
  (also covering `Err::Failure`, which nothing in this code produces),
  and `incomplete` to `Err(Err::Incomplete(_))`.  The extra `nofuel`
  constructor is a model artifact of the fuel-indexed recursive parsers;
  a sufficiency theorem shows it never appears once the fuel exceeds
  `4 * input.length + 6`.
* `Rc` allocations whose equality is `Rc::ptr_eq` (Complement, Verb) are
  modelled by attaching a `Nat` allocation identifier to the node; the
  parser threads a fresh-identifier counter so distinct allocations get
  distinct identifiers.  `Sequence` also carries an identifier for
  uniformity (its equality never inspects it).
* `f64` is modelled as exact rational arithmetic (`Rat`).  The claims
  evaluate numbers only at non-negative integers below `2 ^ 32`, where
  `u32 -> f64` conversion is exact and no rounding occurs, so the
  abstraction is faithful on every input a claim touches.  `NaN` is not
  representable in the model; no claim mentions it.
* `u32` arithmetic in `str_to_int` is modelled with an explicit
  `% 2 ^ 32` (release-mode wrapping; a debug build would abort on the
  same inputs, and either way the affected inputs do not produce the
  digit-by-digit decimal value).
-/

namespace Conlang

/-- Result of a nom 4.x streaming parser over `List Char` input.
`done rest val` is `Ok((rest, val))`; `error` is `Err(Err::Error | Err::Failure)`;
`incomplete` is `Err(Err::Incomplete)`; `nofuel` marks fuel exhaustion in the
fuel-indexed model of the recursive grammar (never reached with enough fuel). -/
inductive PRes (α : Type) where
  | done (rest : List Char) (val : α)
  | error
  | incomplete
  | nofuel

/-- The `Value` sum type of src/ast.rs.  `word` carries the `Word` text;
`complement` and `verb` carry a `Nat` allocation identifier modelling the
`Rc` pointer compared by `Rc::ptr_eq`; `number` carries the `f64` payload
modelled as an exact rational; `sequence` carries its allocation identifier
and the `Vec<Value>` contents. -/
inductive Value where
  | nil
  | word (text : List Char)
  | complement (id : Nat) (head : Value) (tail : Value)
  | verb (id : Nat)
  | number (val : Rat)
  | sequence (id : Nat) (contents : List Value)

/-- The `Sign` enum of src/parser.rs. -/
inductive Sign where
  | positive
  | negative

/-- Index of a `Value` variant, used to state cross-variant equality facts. -/
def variantIdx : Value → Nat
  | .nil => 0
  | .word _ => 1
  | .complement _ _ _ => 2
  | .verb _ => 3
  | .number _ => 4
  | .sequence _ _ => 5

/-- `impl PartialEq for Value` from src/ast.rs: Word compares text,
Complement and Verb compare by `Rc::ptr_eq` (allocation identifier),
Number compares payloads, and every other pairing (including
Sequence/Sequence and Nil/Nil) falls through to `false`. -/
def valueEq : Value → Value → Bool
  | .word l, .word r => l == r
  | .complement i _ _, .complement j _ _ => i == j
  | .verb i, .verb j => i == j
  | .number l, .number r => l == r
  | _, _ => false

/-- `Value::make_word` from src/ast.rs (the `Rc<Word>` allocation carries no
identifier because Word equality is structural). -/
def make_word (w : List Char) : Value :=
  Value.word w

/-- `Value::make_sequence` from src/ast.rs: wraps the list as-is in a fresh
`Rc` allocation.  Returns the value and the updated fresh-identifier counter. -/
def make_sequence (n : Nat) (contents : List Value) : Value × Nat :=
  (Value.sequence n contents, n + 1)

/-- `Value::make_complement` from src/ast.rs: empty tail list returns the head
itself (no allocation); a singleton tail allocates one pair; two or more tail
parts first allocate a Sequence of them and then the pair. -/
def make_complement (n : Nat) (head : Value) (tail : List Value) : Value × Nat :=
  match tail with
  | [] => (head, n)
  | [t] => (Value.complement n head t, n + 1)
  | _ =>
    let (tl, n1) := make_sequence n tail
    (Value.complement n1 head tl, n1 + 1)

/-- `is_dec_digit` from src/parser.rs (`char::is_ascii_digit`). -/
def is_dec_digit (c : Char) : Bool :=
  c.isDigit

/-- `is_whitespace` from src/parser.rs: membership in the string `" \t\n"`. -/
def parser_is_whitespace (c : Char) : Bool :=
  c = ' ' || c = '\t' || c = '\n'

/-- Rust `char::is_whitespace`: the Unicode `White_Space` property, used by
`parse_next` on the whole line buffer. -/
def rustIsWhitespace (c : Char) : Bool :=
  [9, 10, 11, 12, 13, 32, 133, 160, 5760, 8192, 8193, 8194, 8195, 8196,
   8197, 8198, 8199, 8200, 8201, 8202, 8232, 8233, 8239, 8287, 12288].contains c.toNat

/-- The terminator set of `word_str` (`take_until_either1!(".:, \t\n)]}\"'")`). -/
def wordTerminators : List Char :=
  ['.', ':', ',', ' ', '\t', '\n', ')', ']', '}', Char.ofNat 34, Char.ofNat 39]

/-- nom `char!(c)` on streaming `&str`: empty input is `Incomplete`, a
non-matching head is `Error`. -/
def charP (c : Char) : List Char → PRes Char
  | [] => .incomplete
  | x :: rest => if x = c then .done rest c else .error

/-- nom `one_of!(set)` on streaming `&str`. -/
def oneOfP (set : List Char) : List Char → PRes Char
  | [] => .incomplete
  | x :: rest => if set.contains x then .done rest x else .error

/-- Helper for nom `tag!`: compare the tag against the input; a mismatch in
the overlap is `Error`, input running out while still agreeing is
`Incomplete` (nom's `Compare` for `&str`). -/
def tagAux : List Char → List Char → PRes Unit
  | [], rest => .done rest ()
  | _ :: _, [] => .incomplete
  | a :: as_, b :: bs => if a = b then tagAux as_ bs else .error

/-- nom `tag!(t)` on streaming `&str` (returns the matched slice). -/
def tagP (t : List Char) (s : List Char) : PRes (List Char) :=
  match tagAux t s with
  | .done rest _ => .done rest t
  | .error => .error
  | .incomplete => .incomplete
  | .nofuel => .nofuel

/-- nom `take_while!(p)` on streaming `&str`: reaching the end of input is
`Incomplete` (even with zero or more matches so far); `acc` accumulates the
matched run. -/
def takeWhileP (p : Char → Bool) : List Char → List Char → PRes (List Char)
  | _, [] => .incomplete
  | acc, c :: rest =>
    if p c then takeWhileP p (acc ++ [c]) rest else .done (c :: rest) acc

/-- nom `take_while1!(p)` on streaming `&str`: like `take_while!` but a
non-matching first character is `Error`. -/
def takeWhile1P (p : Char → Bool) : List Char → List Char → PRes (List Char)
  | _, [] => .incomplete
  | acc, c :: rest =>
    if p c then takeWhile1P p (acc ++ [c]) rest
    else if acc = [] then .error else .done (c :: rest) acc

/-- nom `take_until_either1!(terms)` on streaming `&str`: scan for the first
terminator; a terminator at position 0 is `Error`, no terminator before the
end of input is `Incomplete`. -/
def takeUntilEither1P (terms : List Char) : List Char → List Char → PRes (List Char)
  | _, [] => .incomplete
  | acc, c :: rest =>
    if terms.contains c then
      if acc = [] then .error else .done (c :: rest) acc
    else takeUntilEither1P terms (acc ++ [c]) rest

/-- nom `opt!` applied to a result: `Error` backtracks to the original input
with `none`; `Incomplete` propagates. -/
def popt {α : Type} (orig : List Char) : PRes α → PRes (Option α)
  | .done rest v => .done rest (some v)
  | .error => .done orig none
  | .incomplete => .incomplete
  | .nofuel => .nofuel

/-- nom `complete!` applied to a result: converts `Incomplete` into `Error`. -/
def pcomplete {α : Type} : PRes α → PRes α
  | .done rest v => .done rest v
  | .error => .error
  | .incomplete => .error
  | .nofuel => .nofuel

/-- The `token!` macro from src/parser.rs applied to an already-computed
inner result: `tuple!(complete!(inner), opt!(whitespace))`. -/
def tokenP {α : Type} (r : PRes α) : PRes α :=
  match pcomplete r with
  | .done rest v =>
    match popt rest (takeWhileP parser_is_whitespace [] rest) with
    | .done rest1 _ => .done rest1 v
    | .error => .error
    | .incomplete => .incomplete
    | .nofuel => .nofuel
  | .error => .error
  | .incomplete => .incomplete
  | .nofuel => .nofuel

/-- The `sign` parser: `alt!(tag!("+") | tag!("-"))`; nom `alt!` tries the
next branch only on `Error`. -/
def signP (s : List Char) : PRes Sign :=
  match tagP ['+'] s with
  | .done rest _ => .done rest Sign.positive
  | .error =>
    match tagP ['-'] s with
    | .done rest _ => .done rest Sign.negative
    | .error => .error
    | .incomplete => .incomplete
    | .nofuel => .nofuel
  | .incomplete => .incomplete
  | .nofuel => .nofuel

/-- `str_to_int` from src/parser.rs: left-to-right accumulation
`n = n * radix + digit` in `u32` arithmetic, modelled with an explicit
wrap `% 2 ^ 32` (release-mode semantics; `to_digit` is modelled for the
ASCII digits the callers feed it). -/
def str_to_int (s : List Char) (radix : Nat) : Nat :=
  s.foldl (fun n c => (n * radix + (c.toNat - 48)) % 2 ^ 32) 0

/-- `make_number` from src/parser.rs: whole part via `str_to_int` converted
to float (exact below `2 ^ 32`), fractional part as numerator over
`10 ^ length`, exponent (a `u32` cast to `i32` by `powi`, hence the wrap to a
negative exponent at `2 ^ 31`), then negation.  `f64` arithmetic is modelled
as exact rational arithmetic. -/
def make_number (sign : Option Sign) (whole : List Char)
    (fractional : Option (List Char)) (exponent : Option (List Char)) : Value :=
  let n : Rat := (str_to_int whole 10 : Nat)
  let n : Rat :=
    match fractional with
    | some f => n + ((str_to_int f 10 : Nat) : Rat) / (10 : Rat) ^ f.length
    | none => n
  let n : Rat :=
    match exponent with
    | some e =>
      let ev := str_to_int e 10
      let ei : Int := if ev < 2 ^ 31 then (ev : Int) else (ev : Int) - 2 ^ 32
      n * (10 : Rat) ^ ei
    | none => n
  let n : Rat :=
    match sign with
    | some Sign.negative => -n
    | _ => n
  Value.number n

/-- `preceded!(tag!("."), decimal)`, the fractional-part body. -/
def fracP (s : List Char) : PRes (List Char) :=
  match tagP ['.'] s with
  | .done s1 _ => takeWhile1P is_dec_digit [] s1
  | .error => .error
  | .incomplete => .incomplete
  | .nofuel => .nofuel

/-- `preceded!(one_of!("eE"), decimal)`, the exponent body. -/
def expP (s : List Char) : PRes (List Char) :=
  match oneOfP ['e', 'E'] s with
  | .done s1 _ => takeWhile1P is_dec_digit [] s1
  | .error => .error
  | .incomplete => .incomplete
  | .nofuel => .nofuel

/-- The `number` parser from src/parser.rs:
`opt!(sign) >> decimal >> opt!(complete!(frac)) >> opt!(complete!(exp))`
combined by `make_number`. -/
def numberP (s : List Char) : PRes Value :=
  match popt s (signP s) with
  | .done s1 sgn =>
    match takeWhile1P is_dec_digit [] s1 with
    | .done s2 whole =>
      match popt s2 (pcomplete (fracP s2)) with
      | .done s3 fracOpt =>
        match popt s3 (pcomplete (expP s3)) with
        | .done s4 expOpt => .done s4 (make_number sgn whole fracOpt expOpt)
        | .error => .error
        | .incomplete => .incomplete
        | .nofuel => .nofuel
      | .error => .error
      | .incomplete => .incomplete
      | .nofuel => .nofuel
    | .error => .error
    | .incomplete => .incomplete
    | .nofuel => .nofuel
  | .error => .error
  | .incomplete => .incomplete
  | .nofuel => .nofuel

/-- The `word_str` parser: `take_until_either1!(".:, \t\n)]}\"'")`. -/
def word_str (s : List Char) : PRes (List Char) :=
  takeUntilEither1P wordTerminators [] s

/-- The `word` parser: `map!(word_str, Value::make_word)`. -/
def wordP (s : List Char) : PRes Value :=
  match word_str s with
  | .done rest w => .done rest (make_word w)
  | .error => .error
  | .incomplete => .incomplete
  | .nofuel => .nofuel

/-- Lift a parser that performs no allocation into the allocation-threaded
result type (the counter passes through unchanged). -/
def liftV (a : Nat) : PRes Value → PRes (Nat × Value)
  | .done rest v => .done rest (a, v)
  | .error => .error
  | .incomplete => .incomplete
  | .nofuel => .nofuel

mutual

/-- The `value` grammar dispatcher from src/parser.rs:
`alt!(complement | sequence | number | word)`.  nom `alt!` falls through to
the next branch only on `Error`; `Incomplete` short-circuits.  `fuel` bounds
the recursion depth of the model; `a` is the fresh-allocation counter. -/
def valueF : Nat → Nat → List Char → PRes (Nat × Value)
  | 0, _, _ => .nofuel
  | fuel + 1, a, s =>
    match complementF fuel a s with
    | .error =>
      match sequenceF fuel a s with
      | .error =>
        match numberP s with
        | .error => liftV a (wordP s)
        | r => liftV a r
      | r => r
    | r => r
termination_by structural fuel _ _ => fuel

/-- The `complement` parser from src/parser.rs:
`word_str >> char!(':') >> value >> many0!(complete!(complement_part))`
combined by `Value::make_complement`. -/
def complementF : Nat → Nat → List Char → PRes (Nat × Value)
  | 0, _, _ => .nofuel
  | fuel + 1, a, s =>
    match word_str s with
    | .done s1 pfx =>
      match charP ':' s1 with
      | .done s2 _ =>
        match valueF fuel a s2 with
        | .done s3 (a1, head) =>
          match many0F fuel a1 pfx s3 with
          | .done s4 (a2, parts) =>
            let (v, a3) := make_complement a2 head parts
            .done s4 (a3, v)
          | .error => .error
          | .incomplete => .incomplete
          | .nofuel => .nofuel
        | .error => .error
        | .incomplete => .incomplete
        | .nofuel => .nofuel
      | .error => .error
      | .incomplete => .incomplete
      | .nofuel => .nofuel
    | .error => .error
    | .incomplete => .incomplete
    | .nofuel => .nofuel
termination_by structural fuel _ _ => fuel

/-- The `complement_part!` macro: `tuple!(tag!(pfx), char!(':'), value)`,
keeping the value. -/
def complementPartF : Nat → Nat → List Char → List Char → PRes (Nat × Value)
  | 0, _, _, _ => .nofuel
  | fuel + 1, a, pfx, s =>
    match tagP pfx s with
    | .done s1 _ =>
      match charP ':' s1 with
      | .done s2 _ => valueF fuel a s2
      | .error => .error
      | .incomplete => .incomplete
      | .nofuel => .nofuel
    | .error => .error
    | .incomplete => .incomplete
    | .nofuel => .nofuel
termination_by structural fuel _ _ _ => fuel

/-- nom `many0!(complete!(complement_part!(pfx)))`: stop on `Error`, keep an
explicit guard against a successful parse that consumes nothing (nom 4's
`ErrorKind::Many0` infinite-loop protection; unreachable here because the
part always consumes the nonempty prefix and a colon). -/
def many0F : Nat → Nat → List Char → List Char → PRes (Nat × List Value)
  | 0, _, _, _ => .nofuel
  | fuel + 1, a, pfx, s =>
    match pcomplete (complementPartF fuel a pfx s) with
    | .done s1 (a1, v) =>
      if s1 = s then .error
      else
        match many0F fuel a1 pfx s1 with
        | .done s2 (a2, vs) => .done s2 (a2, v :: vs)
        | .error => .error
        | .incomplete => .incomplete
        | .nofuel => .nofuel
    | .error => .done s (a, [])
    | .incomplete => .incomplete
    | .nofuel => .nofuel
termination_by structural fuel _ _ _ => fuel

/-- The `sequence` parser from src/parser.rs:
`seq_delimiter >> separated_nonempty_list!(token!(char!(delim)), value)`
combined by `Value::make_sequence`, where
`seq_delimiter = token!(one_of!(",;"))`. -/
def sequenceF : Nat → Nat → List Char → PRes (Nat × Value)
  | 0, _, _ => .nofuel
  | fuel + 1, a, s =>
    match tokenP (oneOfP [',', ';'] s) with
    | .done s1 d =>
      match sepListF fuel a d s1 with
      | .done s2 (a1, vs) =>
        let (v, a2) := make_sequence a1 vs
        .done s2 (a2, v)
      | .error => .error
      | .incomplete => .incomplete
      | .nofuel => .nofuel
    | .error => .error
    | .incomplete => .incomplete
    | .nofuel => .nofuel
termination_by structural fuel _ _ => fuel

/-- nom `separated_nonempty_list!(token!(char!(d)), value)`: the first
element must succeed; the remaining elements are collected by `sepLoopF`. -/
def sepListF : Nat → Nat → Char → List Char → PRes (Nat × List Value)
  | 0, _, _, _ => .nofuel
  | fuel + 1, a, d, s =>
    match valueF fuel a s with
    | .done s1 (a1, v) => sepLoopF fuel a1 d [v] s1
    | .error => .error
    | .incomplete => .incomplete
    | .nofuel => .nofuel
termination_by structural fuel _ _ _ => fuel

/-- The tail loop of `separated_nonempty_list!`: try the separator
(`token!(char!(d))`); on `Error` stop with the input unconsumed; on success
parse the next `value`; if that fails with `Error`, stop backtracking to
before the separator (nom 4 semantics); `Incomplete` propagates. -/
def sepLoopF : Nat → Nat → Char → List Value → List Char → PRes (Nat × List Value)
  | 0, _, _, _, _ => .nofuel
  | fuel + 1, a, d, acc, s =>
    match tokenP (charP d s) with
    | .done s1 _ =>
      match valueF fuel a s1 with
      | .done s2 (a1, v) => sepLoopF fuel a1 d (acc ++ [v]) s2
      | .error => .done s (a, acc)
      | .incomplete => .incomplete
      | .nofuel => .nofuel
    | .error => .done s (a, acc)
    | .incomplete => .incomplete
    | .nofuel => .nofuel
termination_by structural fuel _ _ _ _ => fuel
end

/-- The `value_line` parser: `terminated!(value, opt!(complete!(char!('.'))))`. -/
def value_lineF (fuel a : Nat) (s : List Char) : PRes (Nat × Value) :=
  match valueF fuel a s with
  | .done s1 av =>
    match popt s1 (pcomplete (charP '.' s1)) with
    | .done s2 _ => .done s2 av
    | .error => .error
    | .incomplete => .incomplete
    | .nofuel => .nofuel
  | .error => .error
  | .incomplete => .incomplete
  | .nofuel => .nofuel

/-- `value_line` run with sufficient fuel for its input (the sufficiency
theorem shows `4 * length + 6` never exhausts). -/
def value_line (a : Nat) (s : List Char) : PRes (Nat × Value) :=
  value_lineF (4 * s.length + 6) a s

/-- Outcome of one `ConlangReader::parse_next` call.  `fatal` models the
`unwrap()` panic on a parse result that is not `Ok` — an abort of the whole
process, not a reported error. -/
inductive ReadResult where
  | ok (v : Value)
  | tooMuchInput (line : List Char)
  | eof
  | fatal

/-- `ConlangReader::parse_next` from src/parser.rs.  State is the list of
remaining input lines plus the allocation counter.  An empty line source is
`Eof`; otherwise one line is pulled and `value_line` is unwrapped (any
parse failure aborts: `fatal`); on a parse, the value is returned when the
remainder is empty or the whole buffer is Unicode whitespace
(`buf.chars().all(char::is_whitespace)`), else `TooMuchInput` carries the
unconsumed remainder. -/
def parse_next (a : Nat) : List (List Char) → ReadResult × Nat × List (List Char)
  | [] => (.eof, a, [])
  | buf :: rest =>
    match value_line a buf with
    | .done remaining (a1, v) =>
      if remaining.isEmpty || buf.all rustIsWhitespace then (.ok v, a1, rest)
      else (.tooMuchInput remaining, a1, rest)
    | _ => (.fatal, a, rest)

/-- Outcome of `Iterator::next` for `ConlangReader`. -/
inductive NextOutcome where
  | yields (v : Value)
  | ended
  | fatal

/-- `impl Iterator for ConlangReader`: `self.parse_next().ok()` — any
reported error (`TooMuchInput` or `Eof`) becomes `None` (the sequence ends);
the panic propagates. -/
def readerNext (a : Nat) (lines : List (List Char)) :
    NextOutcome × Nat × List (List Char) :=
  match parse_next a lines with
  | (.ok v, a1, rest) => (.yields v, a1, rest)
  | (.fatal, a1, rest) => (.fatal, a1, rest)
  | (_, a1, rest) => (.ended, a1, rest)

/-- The values the `repl` loop of src/main.rs observes: pull values until the
iterator yields `None` (or the process aborts), never skipping a bad line. -/
def collectValues : Nat → List (List Char) → List Value
  | _, [] => []
  | a, buf :: rest =>
    match parse_next a (buf :: rest) with
    | (.ok v, a1, _) => v :: collectValues a1 rest
    | _ => []

/-- Modelled from the spec: the digit-by-digit decimal value of a digit
string, `value = value * 10 + digit` left-to-right with no overflow — the
quantity the spec says the number parser produces.  Kept separate from the
source-derived `str_to_int` so the two can be compared. -/
def decimalValue (s : List Char) : Nat :=
  s.foldl (fun n c => n * 10 + (c.toNat - 48)) 0

end Conlang

namespace Conlang

/-- `charP` consumes exactly one character when it succeeds. -/
theorem charP_done {c : Char} {s r : List Char} {v : Char}
    (h : charP c s = .done r v) : s.length = r.length + 1 := by
  cases s with
  | nil => simp [charP] at h
  | cons x rest =>
    simp only [charP] at h
    split at h
    · cases h; simp
    · cases h

/-- `charP` never exhausts fuel. -/
theorem charP_ne_nofuel {c : Char} {s : List Char} : charP c s ≠ .nofuel := by
  cases s with
  | nil => simp [charP]
  | cons x rest =>
    simp only [charP]
    split <;> simp

/-- `oneOfP` consumes exactly one character when it succeeds. -/
theorem oneOfP_done {set : List Char} {s r : List Char} {v : Char}
    (h : oneOfP set s = .done r v) : s.length = r.length + 1 := by
  cases s with
  | nil => simp [oneOfP] at h
  | cons x rest =>
    simp only [oneOfP] at h
    split at h
    · cases h; simp
    · cases h

/-- `oneOfP` never exhausts fuel. -/
theorem oneOfP_ne_nofuel {set : List Char} {s : List Char} : oneOfP set s ≠ .nofuel := by
  cases s with
  | nil => simp [oneOfP]
  | cons x rest =>
    simp only [oneOfP]
    split <;> simp

/-- `tagAux` consumes exactly the tag's length when it succeeds. -/
theorem tagAux_done {t s r : List Char} {v : Unit}
    (h : tagAux t s = .done r v) : s.length = r.length + t.length := by
  induction t generalizing s with
  | nil => cases s <;> (cases h; simp)
  | cons a as_ ih =>
    cases s with
    | nil => simp [tagAux] at h
    | cons b bs =>
      simp only [tagAux] at h
      split at h
      · have := ih h
        simp [this]
        omega
      · cases h

/-- `tagAux` never exhausts fuel. -/
theorem tagAux_ne_nofuel {t s : List Char} : tagAux t s ≠ .nofuel := by
  induction t generalizing s with
  | nil => simp [tagAux]
  | cons a as_ ih =>
    cases s with
    | nil => simp [tagAux]
    | cons b bs =>
      simp only [tagAux]
      split
      · exact ih
      · simp

/-- `tagP` consumes exactly the tag's length when it succeeds. -/
theorem tagP_done {t s r out : List Char}
    (h : tagP t s = .done r out) : s.length = r.length + t.length := by
  unfold tagP at h
  cases ht : tagAux t s <;> rw [ht] at h <;> cases h
  exact tagAux_done ht

/-- `tagP` never exhausts fuel. -/
theorem tagP_ne_nofuel {t s : List Char} : tagP t s ≠ .nofuel := by
  unfold tagP
  cases ht : tagAux t s <;> simp
  exact absurd ht tagAux_ne_nofuel

/-- A successful `takeWhileP` splits the accumulated input. -/
theorem takeWhileP_done {p : Char → Bool} {acc s r out : List Char}
    (h : takeWhileP p acc s = .done r out) :
    out.length + r.length = acc.length + s.length := by
  induction s generalizing acc with
  | nil => simp [takeWhileP] at h
  | cons c rest ih =>
    simp only [takeWhileP] at h
    split at h
    · have := ih h
      simp at this
      simp
      omega
    · cases h; simp

/-- `takeWhileP` never exhausts fuel. -/
theorem takeWhileP_ne_nofuel {p : Char → Bool} {acc s : List Char} :
    takeWhileP p acc s ≠ .nofuel := by
  induction s generalizing acc with
  | nil => simp [takeWhileP]
  | cons c rest ih =>
    simp only [takeWhileP]
    split
    · exact ih
    · simp

/-- A successful `takeWhile1P` splits the accumulated input and returns a
nonempty run. -/
theorem takeWhile1P_done {p : Char → Bool} {acc s r out : List Char}
    (h : takeWhile1P p acc s = .done r out) :
    out.length + r.length = acc.length + s.length ∧ out ≠ [] := by
  induction s generalizing acc with
  | nil => simp [takeWhile1P] at h
  | cons c rest ih =>
    simp only [takeWhile1P] at h
    split at h
    · have := ih h
      simp at this
      simpa using ⟨by omega, this.2⟩
    · split at h
      · cases h
      · cases h
        refine ⟨by simp, ?_⟩
        assumption

/-- `takeWhile1P` never exhausts fuel. -/
theorem takeWhile1P_ne_nofuel {p : Char → Bool} {acc s : List Char} :
    takeWhile1P p acc s ≠ .nofuel := by
  induction s generalizing acc with
  | nil => simp [takeWhile1P]
  | cons c rest ih =>
    simp only [takeWhile1P]
    split
    · exact ih
    · split <;> simp

/-- A successful `takeUntilEither1P` splits the accumulated input and
returns a nonempty run. -/
theorem takeUntilEither1P_done {terms acc s r out : List Char}
    (h : takeUntilEither1P terms acc s = .done r out) :
    out.length + r.length = acc.length + s.length ∧ out ≠ [] := by
  induction s generalizing acc with
  | nil => simp [takeUntilEither1P] at h
  | cons c rest ih =>
    simp only [takeUntilEither1P] at h
    split at h
    · split at h
      · cases h
      · cases h
        refine ⟨by simp, ?_⟩
        assumption
    · have := ih h
      simp at this
      simpa using ⟨by omega, this.2⟩

/-- `takeUntilEither1P` never exhausts fuel. -/
theorem takeUntilEither1P_ne_nofuel {terms acc s : List Char} :
    takeUntilEither1P terms acc s ≠ .nofuel := by
  induction s generalizing acc with
  | nil => simp [takeUntilEither1P]
  | cons c rest ih =>
    simp only [takeUntilEither1P]
    split
    · split <;> simp
    · exact ih

end Conlang

namespace Conlang

/-- Inversion for `popt`: success either backtracked with `none` or came
from the inner parser. -/
theorem popt_done {α : Type} {orig : List Char} {r0 : PRes α} {r : List Char}
    {v : Option α} (h : popt orig r0 = .done r v) :
    (r = orig ∧ v = none) ∨ ∃ w, r0 = .done r w ∧ v = some w := by
  cases r0 with
  | done r1 w => cases h; exact Or.inr ⟨w, rfl, rfl⟩
  | error => cases h; exact Or.inl ⟨rfl, rfl⟩
  | incomplete => cases h
  | nofuel => cases h

/-- `popt` preserves nofuel-freedom. -/
theorem popt_ne_nofuel {α : Type} {orig : List Char} {r0 : PRes α}
    (h : r0 ≠ .nofuel) : popt orig r0 ≠ .nofuel := by
  cases r0 <;> simp_all [popt]

/-- Inversion for `pcomplete` success. -/
theorem pcomplete_done {α : Type} {r0 : PRes α} {r : List Char} {v : α}
    (h : pcomplete r0 = .done r v) : r0 = .done r v := by
  cases r0 <;> simp_all [pcomplete]

/-- `pcomplete` preserves nofuel-freedom. -/
theorem pcomplete_ne_nofuel {α : Type} {r0 : PRes α}
    (h : r0 ≠ .nofuel) : pcomplete r0 ≠ .nofuel := by
  cases r0 <;> simp_all [pcomplete]

/-- Inversion for `tokenP` success: the inner parser succeeded and the
trailing-whitespace skip only shrinks the remainder. -/
theorem tokenP_done {α : Type} {r0 : PRes α} {r : List Char} {v : α}
    (h : tokenP r0 = .done r v) :
    ∃ r1, r0 = .done r1 v ∧ r.length ≤ r1.length := by
  unfold tokenP at h
  cases hc : pcomplete r0 <;> rw [hc] at h <;> dsimp only at h
  case done r1 w =>
    have hr0 := pcomplete_done hc
    cases hw : popt r1 (takeWhileP parser_is_whitespace [] r1) <;>
      rw [hw] at h <;> dsimp only at h
    case done r2 u =>
      cases h
      refine ⟨r1, hr0, ?_⟩
      rcases popt_done hw with ⟨heq, _⟩ | ⟨w1, hw1, _⟩
      · rw [heq]
      · have := takeWhileP_done hw1
        simp at this
        omega
    all_goals cases h
  all_goals cases h

/-- `tokenP` preserves nofuel-freedom. -/
theorem tokenP_ne_nofuel {α : Type} {r0 : PRes α}
    (h : r0 ≠ .nofuel) : tokenP r0 ≠ .nofuel := by
  unfold tokenP
  cases hc : pcomplete r0 <;> dsimp only
  case done r1 w =>
    cases hw : popt r1 (takeWhileP parser_is_whitespace [] r1) <;> dsimp only <;>
      first
      | exact absurd hw (popt_ne_nofuel takeWhileP_ne_nofuel)
      | simp
  case nofuel => exact absurd hc (pcomplete_ne_nofuel h)
  all_goals simp

/-- `signP` consumes exactly one character when it succeeds. -/
theorem signP_done {s r : List Char} {v : Sign}
    (h : signP s = .done r v) : s.length = r.length + 1 := by
  unfold signP at h
  cases h1 : tagP ['+'] s <;> rw [h1] at h
  case done => cases h; simpa using tagP_done h1
  case error =>
    cases h2 : tagP ['-'] s <;> rw [h2] at h <;> cases h
    simpa using tagP_done h2
  all_goals cases h

/-- `signP` never exhausts fuel. -/
theorem signP_ne_nofuel {s : List Char} : signP s ≠ .nofuel := by
  unfold signP
  cases h1 : tagP ['+'] s
  case error =>
    cases h2 : tagP ['-'] s <;> simp
    exact absurd h2 tagP_ne_nofuel
  case nofuel => exact absurd h1 tagP_ne_nofuel
  all_goals simp

/-- `fracP` never grows the remainder. -/
theorem fracP_done {s r f : List Char}
    (h : fracP s = .done r f) : r.length ≤ s.length := by
  unfold fracP at h
  cases h1 : tagP ['.'] s <;> rw [h1] at h
  case done s1 _ =>
    have h2 := tagP_done h1
    have h3 := (takeWhile1P_done h).1
    simp at h2 h3
    omega
  all_goals cases h

/-- `fracP` never exhausts fuel. -/
theorem fracP_ne_nofuel {s : List Char} : fracP s ≠ .nofuel := by
  unfold fracP
  cases h1 : tagP ['.'] s
  case done => exact takeWhile1P_ne_nofuel
  case nofuel => exact absurd h1 tagP_ne_nofuel
  all_goals simp

/-- `expP` never grows the remainder. -/
theorem expP_done {s r f : List Char}
    (h : expP s = .done r f) : r.length ≤ s.length := by
  unfold expP at h
  cases h1 : oneOfP ['e', 'E'] s <;> rw [h1] at h
  case done s1 _ =>
    have h2 := oneOfP_done h1
    have h3 := (takeWhile1P_done h).1
    simp at h3
    omega
  all_goals cases h

/-- `expP` never exhausts fuel. -/
theorem expP_ne_nofuel {s : List Char} : expP s ≠ .nofuel := by
  unfold expP
  cases h1 : oneOfP ['e', 'E'] s
  case done => exact takeWhile1P_ne_nofuel
  case nofuel => exact absurd h1 oneOfP_ne_nofuel
  all_goals simp

/-- A successful `numberP` consumes at least one character (the mandatory
whole-part digits). -/
theorem numberP_done {s r : List Char} {v : Value}
    (h : numberP s = .done r v) : r.length < s.length := by
  unfold numberP at h
  cases h1 : popt s (signP s) <;> rw [h1] at h <;> dsimp only at h
  case done s1 sgn =>
    have hs1 : s1.length ≤ s.length := by
      rcases popt_done h1 with ⟨rfl, _⟩ | ⟨w, hw, _⟩
      · exact le_refl _
      · have := signP_done hw; omega
    cases h2 : takeWhile1P is_dec_digit [] s1 <;> rw [h2] at h <;> dsimp only at h
    case done s2 whole =>
      have hs2 : s2.length < s1.length := by
        have := takeWhile1P_done h2
        have hw : whole.length ≠ 0 := by
          intro hz; exact this.2 (List.length_eq_zero.mp hz)
        simp at this
        omega
      cases h3 : popt s2 (pcomplete (fracP s2)) <;> rw [h3] at h <;> dsimp only at h
      case done s3 fo =>
        have hs3 : s3.length ≤ s2.length := by
          rcases popt_done h3 with ⟨rfl, _⟩ | ⟨w, hw, _⟩
          · exact le_refl _
          · exact fracP_done (pcomplete_done hw)
        cases h4 : popt s3 (pcomplete (expP s3)) <;> rw [h4] at h <;> dsimp only at h
        case done s4 eo =>
          have hs4 : s4.length ≤ s3.length := by
            rcases popt_done h4 with ⟨heq, _⟩ | ⟨w, hw, _⟩
            · rw [heq]
            · exact expP_done (pcomplete_done hw)
          cases h
          omega
        all_goals cases h
      all_goals cases h
    all_goals cases h
  all_goals cases h

/-- `numberP` never exhausts fuel. -/
theorem numberP_ne_nofuel {s : List Char} : numberP s ≠ .nofuel := by
  unfold numberP
  cases h1 : popt s (signP s) <;> dsimp only <;>
    try exact absurd h1 (popt_ne_nofuel signP_ne_nofuel)
  case done s1 sgn =>
    cases h2 : takeWhile1P is_dec_digit [] s1 <;> dsimp only <;>
      try exact absurd h2 takeWhile1P_ne_nofuel
    case done s2 whole =>
      cases h3 : popt s2 (pcomplete (fracP s2)) <;> dsimp only <;>
        try exact absurd h3 (popt_ne_nofuel (pcomplete_ne_nofuel fracP_ne_nofuel))
      case done s3 fo =>
        cases h4 : popt s3 (pcomplete (expP s3)) <;> dsimp only <;>
          first
          | exact absurd h4 (popt_ne_nofuel (pcomplete_ne_nofuel expP_ne_nofuel))
          | simp
      all_goals simp
    all_goals simp
  all_goals simp

/-- A successful `word_str` consumes at least one character and returns a
nonempty word. -/
theorem word_str_done {s r w : List Char}
    (h : word_str s = .done r w) :
    w.length + r.length = s.length ∧ w ≠ [] := by
  have := takeUntilEither1P_done h
  simpa using this

/-- `word_str` never exhausts fuel. -/
theorem word_str_ne_nofuel {s : List Char} : word_str s ≠ .nofuel :=
  takeUntilEither1P_ne_nofuel

/-- A successful `wordP` consumes at least one character. -/
theorem wordP_done {s r : List Char} {v : Value}
    (h : wordP s = .done r v) : r.length < s.length := by
  unfold wordP at h
  cases h1 : word_str s <;> rw [h1] at h <;> dsimp only at h
  case done r1 w =>
    cases h
    have := word_str_done h1
    have hw : w.length ≠ 0 := fun hz => this.2 (List.length_eq_zero.mp hz)
    omega
  all_goals cases h

/-- `wordP` never exhausts fuel. -/
theorem wordP_ne_nofuel {s : List Char} : wordP s ≠ .nofuel := by
  unfold wordP
  cases h1 : word_str s <;> simp
  exact absurd h1 word_str_ne_nofuel

/-- Inversion for `liftV` success. -/
theorem liftV_done {a : Nat} {r0 : PRes Value} {r : List Char} {a1 : Nat}
    {v : Value} (h : liftV a r0 = .done r (a1, v)) :
    r0 = .done r v ∧ a1 = a := by
  cases r0 <;> simp_all [liftV]

/-- `liftV` preserves nofuel-freedom. -/
theorem liftV_ne_nofuel {a : Nat} {r0 : PRes Value}
    (h : r0 ≠ .nofuel) : liftV a r0 ≠ .nofuel := by
  cases r0 <;> simp_all [liftV]

end Conlang

namespace Conlang

/-- Consumption bounds for all fueled grammar parsers, proved simultaneously
by induction on fuel: the recursive alternatives (`value`, `complement`,
`complement_part`, `sequence`, `separated_nonempty_list`) consume at least
one character whenever they succeed; the two loops never grow the input. -/
theorem consumption : ∀ fuel : Nat,
    (∀ a s r av, valueF fuel a s = .done r av → r.length < s.length) ∧
    (∀ a s r av, complementF fuel a s = .done r av → r.length < s.length) ∧
    (∀ a pfx s r av, complementPartF fuel a pfx s = .done r av → r.length < s.length) ∧
    (∀ a pfx s r av, many0F fuel a pfx s = .done r av → r.length ≤ s.length) ∧
    (∀ a s r av, sequenceF fuel a s = .done r av → r.length < s.length) ∧
    (∀ a d s r av, sepListF fuel a d s = .done r av → r.length < s.length) ∧
    (∀ a d acc s r av, sepLoopF fuel a d acc s = .done r av → r.length ≤ s.length) := by
  intro fuel
  induction fuel with
  | zero =>
    refine ⟨?_, ?_, ?_, ?_, ?_, ?_, ?_⟩ <;>
      (intros; simp_all [valueF, complementF, complementPartF, many0F,
        sequenceF, sepListF, sepLoopF])
  | succ fuel ih =>
    obtain ⟨ihv, ihc, ihp, ihm, ihq, ihl, iho⟩ := ih
    refine ⟨?_, ?_, ?_, ?_, ?_, ?_, ?_⟩
    · -- valueF
      intro a s r av h
      simp only [valueF] at h
      cases hc : complementF fuel a s <;> rw [hc] at h <;> dsimp only at h
      case done => cases h; exact ihc _ _ _ _ hc
      case error =>
        cases hq : sequenceF fuel a s <;> rw [hq] at h <;> dsimp only at h
        case done => cases h; exact ihq _ _ _ _ hq
        case error =>
          obtain ⟨a1, v1⟩ := av
          cases hn : numberP s <;> rw [hn] at h <;> dsimp only at h
          case done =>
            obtain ⟨hnd, -⟩ := liftV_done h
            cases hnd
            exact numberP_done hn
          case error =>
            obtain ⟨hwd, -⟩ := liftV_done h
            exact wordP_done hwd
          case incomplete => simp [liftV] at h
          case nofuel => simp [liftV] at h
        all_goals cases h
      all_goals cases h
    · -- complementF
      intro a s r av h
      simp only [complementF] at h
      cases h1 : word_str s <;> rw [h1] at h <;> dsimp only at h
      case done s1 pfx =>
        cases h2 : charP ':' s1 <;> rw [h2] at h <;> dsimp only at h
        case done s2 c =>
          cases h3 : valueF fuel a s2 <;> rw [h3] at h <;> dsimp only at h
          case done s3 av1 =>
            obtain ⟨a1, head⟩ := av1
            dsimp only at h
            cases h4 : many0F fuel a1 pfx s3 <;> rw [h4] at h <;> dsimp only at h
            case done s4 av2 =>
              obtain ⟨a2, parts⟩ := av2
              dsimp only at h
              cases h
              have hws := word_str_done h1
              have hpfx : pfx.length ≠ 0 :=
                fun hz => hws.2 (List.length_eq_zero.mp hz)
              have hch := charP_done h2
              have hv := ihv _ _ _ _ h3
              have hm := ihm _ _ _ _ _ h4
              omega
            all_goals cases h
          all_goals cases h
        all_goals cases h
      all_goals cases h
    · -- complementPartF
      intro a pfx s r av h
      simp only [complementPartF] at h
      cases h1 : tagP pfx s <;> rw [h1] at h <;> dsimp only at h
      case done s1 t =>
        cases h2 : charP ':' s1 <;> rw [h2] at h <;> dsimp only at h
        case done s2 c =>
          have h3 := ihv _ _ _ _ h
          have h4 := tagP_done h1
          have h5 := charP_done h2
          omega
        all_goals cases h
      all_goals cases h
    · -- many0F
      intro a pfx s r av h
      simp only [many0F] at h
      cases h1 : pcomplete (complementPartF fuel a pfx s) <;> rw [h1] at h <;>
        dsimp only at h
      case done s1 av1 =>
        obtain ⟨a1, v⟩ := av1
        dsimp only at h
        split at h
        · cases h
        · cases h2 : many0F fuel a1 pfx s1 <;> rw [h2] at h <;> dsimp only at h
          case done s2 av2 =>
            obtain ⟨a2, vs⟩ := av2
            dsimp only at h
            cases h
            have hp := ihp _ _ _ _ _ (pcomplete_done h1)
            have hm := ihm _ _ _ _ _ h2
            omega
          all_goals cases h
      case error =>
        cases h
        exact le_refl _
      all_goals cases h
    · -- sequenceF
      intro a s r av h
      simp only [sequenceF] at h
      cases h1 : tokenP (oneOfP [',', ';'] s) <;> rw [h1] at h <;> dsimp only at h
      case done s1 d =>
        cases h2 : sepListF fuel a d s1 <;> rw [h2] at h <;> dsimp only at h
        case done s2 av1 =>
          obtain ⟨a1, vs⟩ := av1
          dsimp only [make_sequence] at h
          cases h
          obtain ⟨r1, hr1, hle⟩ := tokenP_done h1
          have := oneOfP_done hr1
          have hl := ihl _ _ _ _ _ h2
          omega
        all_goals cases h
      all_goals cases h
    · -- sepListF
      intro a d s r av h
      simp only [sepListF] at h
      cases h1 : valueF fuel a s <;> rw [h1] at h <;> dsimp only at h
      case done s1 av1 =>
        obtain ⟨a1, v⟩ := av1
        dsimp only at h
        have h2 := iho _ _ _ _ _ _ h
        have h3 := ihv _ _ _ _ h1
        omega
      all_goals cases h
    · -- sepLoopF
      intro a d acc s r av h
      simp only [sepLoopF] at h
      cases h1 : tokenP (charP d s) <;> rw [h1] at h <;> dsimp only at h
      case done s1 c =>
        cases h2 : valueF fuel a s1 <;> rw [h2] at h <;> dsimp only at h
        case done s2 av1 =>
          obtain ⟨a1, v⟩ := av1
          dsimp only at h
          have h3 := iho _ _ _ _ _ _ h
          have h4 := ihv _ _ _ _ h2
          obtain ⟨r1, hr1, hle⟩ := tokenP_done h1
          have := charP_done hr1
          omega
        case error =>
          cases h
          exact le_refl _
        all_goals cases h
      case error =>
        cases h
        exact le_refl _
      all_goals cases h

end Conlang

namespace Conlang

/-- Fuel sufficiency for all fueled grammar parsers, proved simultaneously by
induction on fuel: since every recursive alternative consumes input before
recursing (the `consumption` bounds), fuel linear in the input length is
never exhausted.  The `complement_part`/`many0` components additionally
assume the nonempty prefix that `complement` always supplies. -/
theorem sufficiency : ∀ fuel : Nat,
    (∀ a s, 4 * s.length + 6 ≤ fuel → valueF fuel a s ≠ .nofuel) ∧
    (∀ a s, 4 * s.length + 1 ≤ fuel → complementF fuel a s ≠ .nofuel) ∧
    (∀ a pfx s, pfx ≠ [] → 4 * s.length + 1 ≤ fuel →
      complementPartF fuel a pfx s ≠ .nofuel) ∧
    (∀ a pfx s, pfx ≠ [] → 4 * s.length + 2 ≤ fuel →
      many0F fuel a pfx s ≠ .nofuel) ∧
    (∀ a s, 4 * s.length + 4 ≤ fuel → sequenceF fuel a s ≠ .nofuel) ∧
    (∀ a d s, 4 * s.length + 7 ≤ fuel → sepListF fuel a d s ≠ .nofuel) ∧
    (∀ a d acc s, 4 * s.length + 3 ≤ fuel → sepLoopF fuel a d acc s ≠ .nofuel) := by
  intro fuel
  induction fuel with
  | zero =>
    refine ⟨?_, ?_, ?_, ?_, ?_, ?_, ?_⟩ <;> (intros; omega)
  | succ fuel ih =>
    obtain ⟨ihv, ihc, ihp, ihm, ihq, ihl, iho⟩ := ih
    refine ⟨?_, ?_, ?_, ?_, ?_, ?_, ?_⟩
    · -- valueF
      intro a s hf
      simp only [valueF]
      cases hc : complementF fuel a s <;> dsimp only
      case nofuel => exact absurd hc (ihc _ _ (by omega))
      case error =>
        cases hq : sequenceF fuel a s <;> dsimp only
        case nofuel => exact absurd hq (ihq _ _ (by omega))
        case error =>
          cases hn : numberP s <;> dsimp only
          case nofuel => exact absurd hn numberP_ne_nofuel
          case error => exact liftV_ne_nofuel wordP_ne_nofuel
          all_goals simp [liftV]
        all_goals simp
      all_goals simp
    · -- complementF
      intro a s hf
      simp only [complementF]
      cases h1 : word_str s <;> dsimp only
      case nofuel => exact absurd h1 word_str_ne_nofuel
      case done s1 pfx =>
        have hws := word_str_done h1
        have hpfx : pfx.length ≠ 0 := fun hz => hws.2 (List.length_eq_zero.mp hz)
        cases h2 : charP ':' s1 <;> dsimp only
        case nofuel => exact absurd h2 charP_ne_nofuel
        case done s2 c =>
          have hch := charP_done h2
          cases h3 : valueF fuel a s2 <;> dsimp only
          case nofuel => exact absurd h3 (ihv _ _ (by omega))
          case done s3 av1 =>
            obtain ⟨a1, head⟩ := av1
            dsimp only
            have hv3 := (consumption fuel).1 _ _ _ _ h3
            cases h4 : many0F fuel a1 pfx s3 <;> dsimp only
            case nofuel =>
              exact absurd h4 (ihm _ _ _ hws.2 (by omega))
            case done s4 av2 =>
              obtain ⟨a2, parts⟩ := av2
              dsimp only
              cases hmk : make_complement a2 head parts
              simp
            all_goals simp
          all_goals simp
        all_goals simp
      all_goals simp
    · -- complementPartF
      intro a pfx s hpfx hf
      have hpl : pfx.length ≠ 0 := fun hz => hpfx (List.length_eq_zero.mp hz)
      simp only [complementPartF]
      cases h1 : tagP pfx s <;> dsimp only
      case nofuel => exact absurd h1 tagP_ne_nofuel
      case done s1 t =>
        have htg := tagP_done h1
        cases h2 : charP ':' s1 <;> dsimp only
        case nofuel => exact absurd h2 charP_ne_nofuel
        case done s2 c =>
          have hch := charP_done h2
          exact ihv _ _ (by omega)
        all_goals simp
      all_goals simp
    · -- many0F
      intro a pfx s hpfx hf
      simp only [many0F]
      cases h1 : pcomplete (complementPartF fuel a pfx s) <;> dsimp only
      case nofuel =>
        exact absurd h1 (pcomplete_ne_nofuel (ihp _ _ _ hpfx (by omega)))
      case done s1 av1 =>
        obtain ⟨a1, v⟩ := av1
        dsimp only
        split
        · simp
        · have hp1 := (consumption fuel).2.2.1 _ _ _ _ _ (pcomplete_done h1)
          cases h2 : many0F fuel a1 pfx s1 <;> dsimp only
          case nofuel => exact absurd h2 (ihm _ _ _ hpfx (by omega))
          case done s2 av2 =>
            obtain ⟨a2, vs⟩ := av2
            dsimp only
            simp
          all_goals simp
      all_goals simp
    · -- sequenceF
      intro a s hf
      simp only [sequenceF]
      cases h1 : tokenP (oneOfP [',', ';'] s) <;> dsimp only
      case nofuel => exact absurd h1 (tokenP_ne_nofuel oneOfP_ne_nofuel)
      case done s1 d =>
        obtain ⟨r1, hr1, hle⟩ := tokenP_done h1
        have := oneOfP_done hr1
        cases h2 : sepListF fuel a d s1 <;> dsimp only
        case nofuel => exact absurd h2 (ihl _ _ _ (by omega))
        case done s2 av1 =>
          obtain ⟨a1, vs⟩ := av1
          dsimp only [make_sequence]
          simp
        all_goals simp
      all_goals simp
    · -- sepListF
      intro a d s hf
      simp only [sepListF]
      cases h1 : valueF fuel a s <;> dsimp only
      case nofuel => exact absurd h1 (ihv _ _ (by omega))
      case done s1 av1 =>
        obtain ⟨a1, v⟩ := av1
        dsimp only
        have hv1 := (consumption fuel).1 _ _ _ _ h1
        exact iho _ _ _ _ (by omega)
      all_goals simp
    · -- sepLoopF
      intro a d acc s hf
      simp only [sepLoopF]
      cases h1 : tokenP (charP d s) <;> dsimp only
      case nofuel => exact absurd h1 (tokenP_ne_nofuel charP_ne_nofuel)
      case done s1 c =>
        obtain ⟨r1, hr1, hle⟩ := tokenP_done h1
        have := charP_done hr1
        cases h2 : valueF fuel a s1 <;> dsimp only
        case nofuel => exact absurd h2 (ihv _ _ (by omega))
        case done s2 av1 =>
          obtain ⟨a1, v⟩ := av1
          dsimp only
          have hv2 := (consumption fuel).1 _ _ _ _ h2
          exact iho _ _ _ _ (by omega)
        all_goals simp
      all_goals simp

end Conlang

namespace Conlang

/-- A decimal digit is not a sign character. -/
theorem digit_ne_plus {c : Char} (h : is_dec_digit c = true) : ('+' : Char) ≠ c :=
  fun he => by rw [← he] at h; exact absurd h (by decide)

/-- A decimal digit is not a minus sign. -/
theorem digit_ne_minus {c : Char} (h : is_dec_digit c = true) : ('-' : Char) ≠ c :=
  fun he => by rw [← he] at h; exact absurd h (by decide)

/-- The sign parser fails (with a plain error) on a digit-headed input. -/
theorem signP_digit {c : Char} {rest : List Char} (h : is_dec_digit c = true) :
    signP (c :: rest) = .error := by
  have hp := digit_ne_plus h
  have hm := digit_ne_minus h
  simp [signP, tagP, tagAux, hp, hm]

/-- Scanning a pure digit run followed by a space consumes exactly the run. -/
theorem decimal_scan {d : List Char} (hd : ∀ c ∈ d, is_dec_digit c = true) :
    ∀ acc : List Char, acc ++ d ≠ [] →
      takeWhile1P is_dec_digit acc (d ++ [' ']) = .done [' '] (acc ++ d) := by
  induction d with
  | nil =>
    intro acc hne
    have hacc : acc ≠ [] := by simpa using hne
    simp only [List.nil_append, List.append_nil]
    simp only [takeWhile1P]
    rw [show is_dec_digit ' ' = false from rfl]
    simp [hacc]
  | cons c d2 ih =>
    intro acc hne
    have hc : is_dec_digit c = true := hd c (by simp)
    simp only [List.cons_append, takeWhile1P, hc, if_true, List.append_eq]
    have := ih (fun x hx => hd x (by simp [hx])) (acc ++ [c]) (by simp)
    rw [this]
    simp

/-- The plain (non-wrapping) decimal accumulation never decreases. -/
theorem decFold_le (s : List Char) :
    ∀ n : Nat, n ≤ s.foldl (fun n c => n * 10 + (c.toNat - 48)) n := by
  induction s with
  | nil => intro n; exact le_refl n
  | cons c s2 ih =>
    intro n
    have h1 : n ≤ n * 10 + (c.toNat - 48) := by omega
    simpa using le_trans h1 (ih (n * 10 + (c.toNat - 48)))

/-- When the plain decimal value stays below `2 ^ 32`, the wrapping `u32`
accumulation computes the same result. -/
theorem wrapFold_eq (s : List Char) :
    ∀ n : Nat, s.foldl (fun n c => n * 10 + (c.toNat - 48)) n < 2 ^ 32 →
      s.foldl (fun n c => (n * 10 + (c.toNat - 48)) % 2 ^ 32) n =
      s.foldl (fun n c => n * 10 + (c.toNat - 48)) n := by
  induction s with
  | nil => intro n _; rfl
  | cons c s2 ih =>
    intro n hlt
    simp only [List.foldl_cons] at hlt ⊢
    have hstep : n * 10 + (c.toNat - 48) < 2 ^ 32 :=
      lt_of_le_of_lt (decFold_le s2 (n * 10 + (c.toNat - 48))) hlt
    rw [Nat.mod_eq_of_lt hstep]
    exact ih _ hlt

/-- `str_to_int` at radix 10 agrees with the spec-side digit-by-digit value
whenever the latter stays below `2 ^ 32`. -/
theorem str_to_int_eq_decimalValue {s : List Char} (h : decimalValue s < 2 ^ 32) :
    str_to_int s 10 = decimalValue s := by
  unfold str_to_int decimalValue at *
  exact wrapFold_eq s 0 h

end Conlang

namespace Conlang

/-- C2 (amended): for every nonempty ASCII-digit string `d` whose
digit-by-digit decimal value stays below `2 ^ 32`, parsing `d ++ " "` with
the number parser succeeds, consumes exactly `d`, and yields `Number` of
that decimal value.  (The whole part is accumulated in 32-bit unsigned
integer arithmetic and then converted exactly to floating point, so values
at or above `2 ^ 32` wrap instead of producing the decimal value — see the
counterexample.) -/
theorem c2_number_digit_strings :
    ∀ d : List Char, d ≠ [] → (∀ c ∈ d, is_dec_digit c = true) →
      decimalValue d < 2 ^ 32 →
      numberP (d ++ [' ']) = .done [' '] (Value.number ((decimalValue d : Nat) : Rat)) := by
  intro d hne hd hlt
  obtain ⟨c, d2, rfl⟩ : ∃ c d2, d = c :: d2 := by
    cases d with
    | nil => exact absurd rfl hne
    | cons c d2 => exact ⟨c, d2, rfl⟩
  have hsign : signP ((c :: d2) ++ [' ']) = .error := by
    simp only [List.cons_append]
    exact signP_digit (hd c (by simp))
  have hdec : takeWhile1P is_dec_digit [] ((c :: d2) ++ [' ']) =
      .done [' '] (c :: d2) := by
    simpa using decimal_scan hd [] (by simp)
  unfold numberP
  rw [hsign]
  dsimp only [popt]
  rw [hdec]
  dsimp only
  rw [show pcomplete (fracP [' ']) = PRes.error from rfl]
  dsimp only [popt]
  rw [show pcomplete (expP [' ']) = PRes.error from rfl]
  dsimp only [popt]
  dsimp only [make_number]
  rw [str_to_int_eq_decimalValue hlt]

/-- C2 counterexample: the ten-digit string `"4294967296"` (decimal value
`2 ^ 32`) parses successfully but yields `Number 0` — the `u32`
accumulation wraps — not the digit-by-digit decimal value the claim
asserts for every digit string. -/
theorem c2_counterexample :
    numberP ("4294967296 ".toList) = .done [' '] (Value.number ((0 : Nat) : Rat)) ∧
    decimalValue ("4294967296".toList) = 4294967296 ∧
    ((0 : Nat) : Rat) ≠ ((4294967296 : Nat) : Rat) := by
  refine ⟨rfl, rfl, ?_⟩
  norm_num

/-- Witness for C2: the single-digit string `"7"`. -/
theorem c2_number_digit_strings_witness :
    (['7'] : List Char) ≠ [] ∧
    numberP (['7'] ++ [' ']) = .done [' '] (Value.number ((decimalValue ['7'] : Nat) : Rat)) :=
  ⟨by decide, c2_number_digit_strings ['7'] (by decide) (by decide) (by decide)⟩

end Conlang

namespace Conlang

/-- C1: equality between any two Sequence values is always false — even for
identical contents and identical allocations (identifiers quantified freely,
including equal ones), and likewise for values built by `make_sequence`;
the comparison logic has no Sequence case and falls through to the
not-equal default. -/
theorem c1_sequence_equality_always_false :
    ∀ (i j : Nat) (xs ys : List Value),
      valueEq (Value.sequence i xs) (Value.sequence j ys) = false ∧
      valueEq (make_sequence i xs).1 (make_sequence j ys).1 = false := by
  intro i j xs ys
  exact ⟨rfl, rfl⟩

/-- C4: `make_complement` returns the head itself (allocating nothing) on an
empty tail list, a single pair on a one-element tail list, and a pair whose
tail is one Sequence of all the tail parts (not a chain of nested pairs) on
two or more. -/
theorem c4_make_complement_shape :
    ∀ (n : Nat) (h : Value) (t : List Value),
      (t = [] → make_complement n h t = (h, n)) ∧
      (∀ x, t = [x] → make_complement n h t = (Value.complement n h x, n + 1)) ∧
      (2 ≤ t.length →
        make_complement n h t =
          (Value.complement (n + 1) h (Value.sequence n t), n + 2)) := by
  intro n h t
  refine ⟨?_, ?_, ?_⟩
  · rintro rfl; rfl
  · rintro x rfl; rfl
  · intro h2
    cases t with
    | nil => simp at h2
    | cons x t2 =>
      cases t2 with
      | nil => simp at h2
      | cons y t3 => rfl

/-- Witness for C4 at concrete inputs of each tail-list shape. -/
theorem c4_make_complement_shape_witness :
    make_complement 5 Value.nil [] = (Value.nil, 5) ∧
    make_complement 5 Value.nil [Value.nil] =
      (Value.complement 5 Value.nil Value.nil, 6) ∧
    make_complement 5 Value.nil [Value.nil, Value.nil] =
      (Value.complement 6 Value.nil (Value.sequence 5 [Value.nil, Value.nil]), 7) :=
  ⟨(c4_make_complement_shape 5 Value.nil []).1 rfl,
   (c4_make_complement_shape 5 Value.nil [Value.nil]).2.1 Value.nil rfl,
   (c4_make_complement_shape 5 Value.nil [Value.nil, Value.nil]).2.2 (by decide)⟩

/-- C5: Complement equality is identity-only — two Complement values with
distinct allocations compare unequal whatever their heads and tails
(including structurally equal ones), while any Complement allocation
compared against itself is equal; the same holds for Verb values. -/
theorem c5_identity_only_equality :
    ∀ (i j : Nat) (h t h2 t2 : Value),
      (i ≠ j → valueEq (Value.complement i h t) (Value.complement j h2 t2) = false) ∧
      valueEq (Value.complement i h t) (Value.complement i h t) = true ∧
      (i ≠ j → valueEq (Value.verb i) (Value.verb j) = false) ∧
      valueEq (Value.verb i) (Value.verb i) = true := by
  intro i j h t h2 t2
  refine ⟨?_, ?_, ?_, ?_⟩
  · intro hij
    simpa [valueEq] using hij
  · simp [valueEq]
  · intro hij
    simpa [valueEq] using hij
  · simp [valueEq]

/-- Witness for C5 at concrete allocations 0 and 1. -/
theorem c5_identity_only_equality_witness :
    valueEq (Value.complement 0 Value.nil Value.nil)
      (Value.complement 1 Value.nil Value.nil) = false ∧
    valueEq (Value.complement 0 Value.nil Value.nil)
      (Value.complement 0 Value.nil Value.nil) = true ∧
    valueEq (Value.verb 0) (Value.verb 1) = false ∧
    valueEq (Value.verb 0) (Value.verb 0) = true :=
  ⟨(c5_identity_only_equality 0 1 Value.nil Value.nil Value.nil Value.nil).1
      (by decide),
   (c5_identity_only_equality 0 1 Value.nil Value.nil Value.nil Value.nil).2.1,
   (c5_identity_only_equality 0 1 Value.nil Value.nil Value.nil Value.nil).2.2.1
      (by decide),
   (c5_identity_only_equality 0 1 Value.nil Value.nil Value.nil Value.nil).2.2.2⟩

/-- C10: values of different variants always compare unequal, and Nil
compared with Nil is also false (the equality logic has no Nil case). -/
theorem c10_cross_variant_and_nil_equality :
    ∀ v w : Value,
      (variantIdx v ≠ variantIdx w → valueEq v w = false) ∧
      valueEq Value.nil Value.nil = false := by
  intro v w
  constructor
  · intro hne
    cases v <;> cases w <;> first | rfl | exact absurd rfl hne
  · rfl

/-- Witness for C10: a Word against Nil. -/
theorem c10_cross_variant_and_nil_equality_witness :
    valueEq (Value.word []) Value.nil = false ∧
    valueEq Value.nil Value.nil = false :=
  ⟨(c10_cross_variant_and_nil_equality (Value.word []) Value.nil).1 (by decide),
   (c10_cross_variant_and_nil_equality Value.nil Value.nil).2⟩

end Conlang

namespace Conlang

/-- C3: on any pulled line where the value grammar matches no alternative
(the dispatcher returns no parse), `parse_next` aborts the whole process
(the `unwrap()` panic on the parse result) instead of reporting an error
value. -/
theorem c3_no_match_aborts :
    ∀ (a : Nat) (buf : List Char) (rest : List (List Char)),
      (∀ r av, valueF (4 * buf.length + 6) a buf ≠ PRes.done r av) →
      parse_next a (buf :: rest) = (.fatal, a, rest) := by
  intro a buf rest hfail
  have hvl : ∀ r av, value_line a buf ≠ PRes.done r av := by
    intro r av h
    unfold value_line value_lineF at h
    cases hv : valueF (4 * buf.length + 6) a buf <;> rw [hv] at h <;> dsimp only at h
    case done r1 av1 => exact hfail _ _ hv
    all_goals cases h
  simp only [parse_next]
  cases hv2 : value_line a buf <;> dsimp only
  case done r av => exact absurd hv2 (hvl _ _)

/-- Witness for C3: the line `":"` matches no alternative, and the reader
aborts on it. -/
theorem c3_no_match_aborts_witness :
    parse_next 0 [[':']] = (.fatal, 0, []) :=
  c3_no_match_aborts 0 [':'] []
    (fun _ _ h =>
      PRes.noConfusion
        ((rfl : valueF (4 * [':'].length + 6) 0 [':'] = PRes.error).symm.trans h))

/-- C6 (amended): `parse_next` reports end-of-input on an exhausted line
source; when the grammar matches a pulled line, the value is returned if
the unconsumed remainder is empty OR the entire buffer consists of Unicode
whitespace; a leftover-input report carrying exactly the unconsumed text
happens only when the remainder is nonempty and the buffer is not all
whitespace. -/
theorem c6_parse_next_contract :
    ∀ (a : Nat) (buf : List Char) (rest : List (List Char)) (rem : List Char)
      (a1 : Nat) (v : Value),
      parse_next a [] = (.eof, a, []) ∧
      (value_line a buf = .done rem (a1, v) →
        ((rem = [] ∨ buf.all rustIsWhitespace = true) →
          parse_next a (buf :: rest) = (.ok v, a1, rest)) ∧
        (rem ≠ [] → buf.all rustIsWhitespace = false →
          parse_next a (buf :: rest) = (.tooMuchInput rem, a1, rest))) := by
  intro a buf rest rem a1 v
  refine ⟨rfl, ?_⟩
  intro hvl
  constructor
  · intro hok
    simp only [parse_next]
    rw [hvl]
    dsimp only
    rw [if_pos]
    rcases hok with rfl | hws
    · simp
    · simp [hws]
  · intro hne hws
    simp only [parse_next]
    rw [hvl]
    dsimp only
    rw [if_neg]
    simp [hws, List.isEmpty_iff, hne]

/-- C6 counterexample: the line consisting of U+00A0 (a Unicode whitespace
character outside the word-terminator set) followed by a space parses as a
Word with the nonempty remainder `" "`, yet `parse_next` returns the value
instead of reporting leftover input, because the whole buffer is Unicode
whitespace. -/
theorem c6_counterexample :
    value_line 0 [Char.ofNat 160, ' '] =
      .done [' '] (0, Value.word [Char.ofNat 160]) ∧
    ([' '] : List Char) ≠ [] ∧
    parse_next 0 [[Char.ofNat 160, ' ']] =
      (.ok (Value.word [Char.ofNat 160]), 0, []) :=
  ⟨rfl, by decide, rfl⟩

/-- Witness for C6: end-of-input on the empty source, and leftover input on
the line `"1. x"`. -/
theorem c6_parse_next_contract_witness :
    parse_next 0 [] = (.eof, 0, []) ∧
    parse_next 0 ["1. x".toList] = (.tooMuchInput (" x".toList), 0, []) := by
  refine ⟨(c6_parse_next_contract 0 [] [] [] 0 Value.nil).1, ?_⟩
  have hvl : value_line 0 ("1. x".toList) =
      .done (" x".toList) (0, Value.number ((1 : Nat) : Rat)) := rfl
  exact ((c6_parse_next_contract 0 ("1. x".toList) [] (" x".toList) 0
    (Value.number ((1 : Nat) : Rat))).2 hvl).2 (by decide) (by decide)

/-- C7: used as a pull sequence, each `parse_next` success yields exactly one
value to the iterator and the collected stream; a reported error
(leftover-input, or end-of-input on the empty source) yields `None`, ending
the sequence so that no later line contributes a value — the bad line is
not skipped. -/
theorem c7_reader_pull_sequence :
    ∀ (a : Nat) (buf : List Char) (rest : List (List Char)),
      (∀ v a1, parse_next a (buf :: rest) = (.ok v, a1, rest) →
        readerNext a (buf :: rest) = (.yields v, a1, rest) ∧
        collectValues a (buf :: rest) = v :: collectValues a1 rest) ∧
      (∀ rem a1, parse_next a (buf :: rest) = (.tooMuchInput rem, a1, rest) →
        readerNext a (buf :: rest) = (.ended, a1, rest) ∧
        collectValues a (buf :: rest) = []) ∧
      (readerNext a [] = (.ended, a, []) ∧ collectValues a [] = []) := by
  intro a buf rest
  refine ⟨?_, ?_, ?_⟩
  · intro v a1 hp
    constructor
    · unfold readerNext
      rw [hp]
    · simp only [collectValues]
      rw [hp]
  · intro rem a1 hp
    constructor
    · unfold readerNext
      rw [hp]
    · simp only [collectValues]
      rw [hp]
  · exact ⟨rfl, rfl⟩

end Conlang

namespace Conlang

/-- Witness for C7: the line `"x x."` leaves the remainder `" x."`
unconsumed, so the iterator ends and the collected stream is empty even
though the following line `"1."` would parse. -/
theorem c7_reader_pull_sequence_witness :
    readerNext 0 ["x x.".toList, "1.".toList] = (.ended, 0, ["1.".toList]) ∧
    collectValues 0 ["x x.".toList, "1.".toList] = [] ∧
    parse_next 0 ["1.".toList] = (.ok (Value.number ((1 : Nat) : Rat)), 0, []) := by
  have hp : parse_next 0 ["x x.".toList, "1.".toList] =
      (.tooMuchInput (" x.".toList), 0, ["1.".toList]) := by rfl
  have h := (c7_reader_pull_sequence 0 ("x x.".toList) ["1.".toList]).2.1
    (" x.".toList) 0 hp
  exact ⟨h.1, h.2, by rfl⟩

/-- C8: the sequence parser first reads one delimiter character from the set
containing the comma and the semicolon (any other head character is an
error); it then requires at least one recursive value (an immediate value
error fails the whole sequence); the element loop continues only across the
exact same delimiter character, so any differing character — in particular
the other delimiter — ends the sequence with the remainder, starting at
that character, left unconsumed.  The closing conjunct runs the parser on
`",1,2;3 "`: it collects `1` and `2` and stops at `";3 "`. -/
theorem c8_sequence_delimiter_rule :
    ∀ (fuel a : Nat) (d c : Char) (rest s : List Char) (acc : List Value),
      (¬(c = ',' ∨ c = ';') → sequenceF (fuel + 1) a (c :: rest) = .error) ∧
      (valueF fuel a s = .error → sepListF (fuel + 1) a d s = .error) ∧
      (c ≠ d → sepLoopF (fuel + 1) a d acc (c :: rest) = .done (c :: rest) (a, acc)) ∧
      sequenceF 30 0 (",1,2;3 ".toList) =
        .done (";3 ".toList)
          (1, Value.sequence 0
            [Value.number ((1 : Nat) : Rat), Value.number ((2 : Nat) : Rat)]) := by
  intro fuel a d c rest s acc
  refine ⟨?_, ?_, ?_, by rfl⟩
  · intro hne
    have hco : ([',', ';'] : List Char).contains c = false := by
      simp only [List.contains_cons, List.contains_nil, Bool.or_eq_false_iff,
        beq_eq_false_iff_ne, ne_eq]
      refine ⟨?_, ?_, trivial⟩ <;> intro hcc <;> exact hne (by simp [hcc])
    simp only [sequenceF, oneOfP, hco]
    rfl
  · intro hval
    simp only [sepListF]
    rw [hval]
  · intro hcd
    simp only [sepLoopF, charP, if_neg hcd]
    rfl

/-- Witness for C8: a non-delimiter head fails the sequence parser, a failed
first element fails the list, and the other delimiter stops the loop with
the remainder unconsumed. -/
theorem c8_sequence_delimiter_rule_witness :
    sequenceF 6 0 ['x'] = PRes.error ∧
    sepListF 6 0 ',' [':'] = PRes.error ∧
    sepLoopF 6 0 ',' [] [';'] = .done [';'] (0, []) := by
  obtain ⟨h1, h2, -, -⟩ := c8_sequence_delimiter_rule 5 0 ',' 'x' [] [':'] []
  obtain ⟨-, -, h3, -⟩ := c8_sequence_delimiter_rule 5 0 ',' ';' [] [':'] []
  exact ⟨h1 (by decide), h2 (by rfl), h3 (by decide)⟩

/-- C9: the value grammar dispatcher terminates on every finite input — fuel
linear in the input length (four units per character plus a constant) is
never exhausted, because every alternative consumes at least one character
before recursing: a successful parse always leaves a strictly shorter
remainder. -/
theorem c9_dispatcher_terminates :
    (∀ (fuel a : Nat) (s : List Char), 4 * s.length + 6 ≤ fuel →
      valueF fuel a s ≠ PRes.nofuel) ∧
    (∀ (fuel a : Nat) (s r : List Char) (av : Nat × Value),
      valueF fuel a s = .done r av → r.length < s.length) :=
  ⟨fun fuel a s h => (sufficiency fuel).1 a s h,
   fun fuel a s r av h => (consumption fuel).1 a s r av h⟩

/-- Witness for C9 on the input `"w."`. -/
theorem c9_dispatcher_terminates_witness :
    valueF 14 0 ['w', '.'] ≠ PRes.nofuel ∧
    (['.'] : List Char).length < (['w', '.'] : List Char).length :=
  ⟨c9_dispatcher_terminates.1 14 0 ['w', '.'] (by decide),
   c9_dispatcher_terminates.2 14 0 ['w', '.'] ['.'] (0, Value.word ['w']) (by rfl)⟩

end Conlang
